import Mathlib

/-!
Verification of the cryptographic core of terraform-provider-vaultwarden.

Shallow embedding of the packages `internal/vaultwarden/crypt`,
`internal/vaultwarden/encryptedstring` and `internal/vaultwarden/helpers`.
Go byte slices are modelled as `List Nat` (each entry a byte value), Go
strings as `List Char`.  External cryptographic primitives from the Go
standard library and `golang.org/x/crypto` (the AES block cipher, HMAC-SHA256,
HKDF-Expand, PBKDF2) are abstracted as function parameters; everything the
repository itself implements (CBC chaining per `crypto/cipher`'s documented
semantics, PKCS#5/7 padding, base64, envelope parsing and serialization,
MAC orchestration) is translated directly from the source.  Go `panic`s that
can be reached from these code paths (slice index out of range, CBC input
not a multiple of the block size, bad IV length handed to the CBC
constructor) are modelled as distinguished error values.
-/

abbrev Bytes := List Nat

deriving instance DecidableEq for Except

/-- Error values corresponding to the `fmt.Errorf` returns (and reachable
panics) of the embedded source functions. -/
inductive Err where
  | unsupportedOldScheme
  | badEncryptionType
  | hmacMissing
  | hmacLengthsDiffer
  | hmacComparisonFailed
  | aesDecoding (inner : Err)
  | emptyPlainValue
  | noEncryptionKey
  | badIVLength
  | aesEncoding (inner : Err)
  | reverseDecrypt (inner : Err)
  | safeCheckFailed
  | aesKeySize
  | panicBadIVLength
  | panicNotFullBlocks
  | panicIndexOutOfRange
  | badPaddingSize
  | emptyEncryptedString
  | parseEncType
  | badPieceCount (expected got : Nat)
  | badBase64IV
  | badBase64Data
  | badBase64Hmac
  | unsupportedEncType
  | invalidKeyLength
  | errDecryptingEncKey (inner : Err)
  | unsupportedEncKeyType (t : Int)
  | unsupportedDecKey (inner : Err)
deriving DecidableEq, Repr

/-- Boolean error test on `Except` results. -/
def isErr : Except Err α → Bool
  | .error _ => true
  | .ok _ => false

/-- Modelled from the spec: the `symmetrickey` package itself is not under
`src/` (only its callers are).  The numeric algorithm-tag values are taken
from the spec's wire-format scenario (prefix `0.` for the unauthenticated
AES-CBC scheme) together with the untagged-inference rules of
`encryptedstring.go` (3 untagged pieces infer `AesCbc128_HmacSha256_B64`). -/
def AesCbc256_B64 : Int := 0

/-- Modelled from the spec: legacy HMAC-authenticated AES-CBC tag. -/
def AesCbc128_HmacSha256_B64 : Int := 1

/-- Modelled from the spec: HMAC-authenticated AES-CBC tag. -/
def AesCbc256_HmacSha256_B64 : Int := 2

/-- Modelled from the spec: RSA-OAEP(SHA-256) tag. -/
def Rsa2048_OaepSha256_B64 : Int := 3

/-- Modelled from the spec: RSA-OAEP(SHA-1) tag. -/
def Rsa2048_OaepSha1_B64 : Int := 4

/-- Modelled from the spec: `symmetrickey.Key` (spec §3 SymmetricKey).
`Key` holds the raw key material, `EncryptionKey` the encryption sub-key,
`MacKey` the authentication sub-key (empty for 32-byte legacy keys),
`EncryptionType` the algorithm tag.  Field names follow the accesses made
by the in-repository callers (`key.Key`, `key.EncryptionKey`, `key.MacKey`,
`key.EncryptionType`); defaults are the Go zero values. -/
structure Key where
  Key : Bytes := []
  EncryptionKey : Bytes := []
  MacKey : Bytes := []
  EncryptionType : Int := 0
deriving DecidableEq, Repr, Inhabited

/-- `encryptedstring.EncryptedString`: IV, ciphertext, MAC and the key
metadata (only the algorithm tag is populated by the parser). -/
structure EncryptedString where
  IV : Bytes := []
  Data : Bytes := []
  Hmac : Bytes := []
  Key : Key := {}
deriving DecidableEq, Repr, Inhabited

/-- Standard base64 alphabet (Go `encoding/base64.StdEncoding`). -/
def b64Alphabet : List Char :=
  ("ABCDEFGHIJKLMNOPQRSTUVWXYZabcdefghijklmnopqrstuvwxyz0123456789+/").toList

/-- Character for a 6-bit group. -/
def b64EncChar (n : Nat) : Char := b64Alphabet.getD n 'A'

/-- Base64 encoding with `=` padding, as performed by Go
`base64.StdEncoding.EncodeToString`. -/
def b64Encode : Bytes → List Char
  | [] => []
  | [a] => [b64EncChar (a / 4), b64EncChar (a % 4 * 16), '=', '=']
  | [a, b] => [b64EncChar (a / 4), b64EncChar (a % 4 * 16 + b / 16),
      b64EncChar (b % 16 * 4), '=']
  | a :: b :: c :: rest =>
      b64EncChar (a / 4) :: b64EncChar (a % 4 * 16 + b / 16) ::
      b64EncChar (b % 16 * 4 + c / 64) :: b64EncChar (c % 64) :: b64Encode rest

/-- Value of a base64 character. -/
def b64DecVal (c : Char) : Option Nat := b64Alphabet.findIdx? (fun x => x = c)

/-- Quad-wise base64 decoding: Go `base64.StdEncoding` decodes four
characters at a time, accepts `=` padding only at the very end (at most two
characters), rejects inputs whose length is not a multiple of four, and
(being non-strict) ignores non-zero trailing bits in the final group. -/
def b64DecodeQuads : List Char → Option Bytes
  | [] => some []
  | a :: b :: c :: d :: rest =>
      match b64DecVal a, b64DecVal b with
      | some va, some vb =>
        if c = '=' then
          if d = '=' ∧ rest = [] then some [va * 4 + vb / 16] else none
        else
          match b64DecVal c with
          | some vc =>
            if d = '=' then
              if rest = [] then some [va * 4 + vb / 16, vb % 16 * 16 + vc / 4]
              else none
            else
              match b64DecVal d with
              | some vd =>
                  (b64DecodeQuads rest).map
                    (fun bs => (va * 4 + vb / 16) :: (vb % 16 * 16 + vc / 4) ::
                      (vc % 4 * 64 + vd) :: bs)
              | none => none
          | none => none
      | _, _ => none
  | _ => none

/-- Go `base64.StdEncoding.DecodeString`: newline characters are ignored
before quad-wise decoding. -/
def b64Decode (s : List Char) : Option Bytes :=
  b64DecodeQuads (s.filter (fun c => c != '\r' && c != '\n'))

/-- Decimal digit run parser (empty or non-digit input yields `none`),
the base-10 digit loop of Go `strconv.ParseInt`. -/
def decDigitsAux : List Char → Nat → Option Nat
  | [], acc => some acc
  | c :: rest, acc =>
      if c.isDigit then decDigitsAux rest (acc * 10 + (c.toNat - 48)) else none

/-- Digits of a non-empty decimal numeral. -/
def decDigits : List Char → Option Nat
  | [] => none
  | l => decDigitsAux l 0

/-- Go `strconv.ParseInt(s, 10, 8)`: optional sign, decimal digits, result
within the `int8` range. -/
def parseInt8 (s : List Char) : Option Int :=
  match s with
  | '+' :: rest =>
      (decDigits rest).bind (fun n => if n ≤ 127 then some (n : Int) else none)
  | '-' :: rest =>
      (decDigits rest).bind (fun n => if n ≤ 128 then some (-(n : Int)) else none)
  | _ => (decDigits s).bind (fun n => if n ≤ 127 then some (n : Int) else none)

/-- Decimal rendering of the algorithm tag, Go `fmt.Sprintf` with a decimal
verb applied to an integer. -/
def intRepr (i : Int) : List Char :=
  if i < 0 then '-' :: Nat.toDigits 10 i.natAbs else Nat.toDigits 10 i.toNat

/-- Header analysis of `NewFromEncryptedValue`: split on `"."`; exactly two
header pieces mean an explicit tag prefix (parsed as a base-10 `int8`),
otherwise the whole input is split on `"|"` and the tag is inferred from the
piece count (3 pieces infer the legacy HMAC-authenticated AES-CBC scheme,
anything else the legacy unauthenticated one). -/
def parseHeader (s : List Char) : Except Err (Int × List (List Char)) :=
  let headerPieces := s.splitOn '.'
  if headerPieces.length = 2 then
    match parseInt8 (headerPieces.getD 0 []) with
    | none => .error .parseEncType
    | some t => .ok (t, (headerPieces.getD 1 []).splitOn '|')
  else
    let encPieces := s.splitOn '|'
    .ok ((if encPieces.length = 3 then AesCbc128_HmacSha256_B64
          else AesCbc256_B64), encPieces)

/-- Base64 decoding of the IV, data and MAC pieces, in the order performed
at the end of `NewFromEncryptedValue` (pieces not populated for a scheme
remain empty strings, which decode to empty byte slices). -/
def decodePieces (t : Int) (ivS dataS hmacS : List Char) :
    Except Err EncryptedString :=
  match b64Decode ivS with
  | none => .error .badBase64IV
  | some iv =>
    match b64Decode dataS with
    | none => .error .badBase64Data
    | some data =>
      match b64Decode hmacS with
      | none => .error .badBase64Hmac
      | some hmac => .ok ⟨iv, data, hmac, ⟨[], [], [], t⟩⟩

/-- `encryptedstring.NewFromEncryptedValue`: rejects the empty string,
determines the algorithm tag and pieces via `parseHeader`, enforces the
piece count expected by the tag (HMAC-authenticated schemes take
IV|data|MAC, the unauthenticated AES scheme IV|data, RSA schemes a single
data piece), and base64-decodes the pieces. -/
def NewFromEncryptedValue (s : List Char) : Except Err EncryptedString :=
  if s = [] then .error .emptyEncryptedString
  else
    match parseHeader s with
    | .error e => .error e
    | .ok (t, encPieces) =>
      if t = AesCbc128_HmacSha256_B64 ∨ t = AesCbc256_HmacSha256_B64 then
        if encPieces.length ≠ 3 then .error (.badPieceCount 3 encPieces.length)
        else decodePieces t (encPieces.getD 0 []) (encPieces.getD 1 [])
          (encPieces.getD 2 [])
      else if t = AesCbc256_B64 then
        if encPieces.length ≠ 2 then .error (.badPieceCount 2 encPieces.length)
        else decodePieces t (encPieces.getD 0 []) (encPieces.getD 1 []) []
      else if t = Rsa2048_OaepSha256_B64 ∨ t = Rsa2048_OaepSha1_B64 then
        if encPieces.length ≠ 1 then .error (.badPieceCount 1 encPieces.length)
        else decodePieces t [] (encPieces.getD 0 []) []
      else .error .unsupportedEncType

/-- `EncryptedString.String()`: always emits the decimal tag followed by a
dot; the base64 IV segment (with its separator) is present only when the IV
is non-empty, the base64 MAC segment only when the MAC is non-empty. -/
def EncryptedString.string (e : EncryptedString) : List Char :=
  let base :=
    if 0 < e.IV.length then
      intRepr e.Key.EncryptionType ++ '.' ::
        (b64Encode e.IV ++ '|' :: b64Encode e.Data)
    else
      intRepr e.Key.EncryptionType ++ '.' :: b64Encode e.Data
  if 0 < e.Hmac.length then base ++ '|' :: b64Encode e.Hmac else base

/-- `pkcs5Padding`: append `blockSize - len % blockSize` copies of that
count (as a byte) to reach a block boundary. -/
def pkcs5Padding (cipherText : Bytes) (blockSize : Nat) : Bytes :=
  let padding := blockSize - cipherText.length % blockSize
  cipherText ++ List.replicate padding (padding % 256)

/-- `pkcs5Unpadding`: read the final byte as the padding length; when it
equals the whole length return the empty slice, when it exceeds the block
size fail, otherwise drop that many bytes.  Indexing the final byte of an
empty slice is a Go panic, modelled as a distinguished error. -/
def pkcs5Unpadding (src : Bytes) (blockSize : Nat) : Except Err Bytes :=
  match src.getLast? with
  | none => .error .panicIndexOutOfRange
  | some paddingLen =>
    if paddingLen = src.length then .ok []
    else if blockSize < paddingLen then .error .badPaddingSize
    else .ok (src.take (src.length - paddingLen))

/-- Bytewise XOR of two equal-length blocks. -/
def xorBytes (a b : Bytes) : Bytes := List.zipWith Nat.xor a b

/-- Split into 16-byte blocks (the AES block size). -/
def toBlocks16 : Bytes → List Bytes
  | [] => []
  | a :: rest =>
      (a :: rest).take 16 :: toBlocks16 ((a :: rest).drop 16)
termination_by l => l.length
decreasing_by simp [List.drop]; omega

/-- CBC encryption chaining (Go `cipher.NewCBCEncrypter` semantics): each
plaintext block is XORed with the previous ciphertext block (initially the
IV) before the block cipher is applied. -/
def cbcEncList (aesEncB : Bytes → Bytes → Bytes) (key : Bytes) :
    Bytes → List Bytes → List Bytes
  | _, [] => []
  | prev, b :: bs =>
      let c := aesEncB key (xorBytes b prev)
      c :: cbcEncList aesEncB key c bs

/-- CBC decryption chaining (Go `cipher.NewCBCDecrypter` semantics). -/
def cbcDecList (aesDecB : Bytes → Bytes → Bytes) (key : Bytes) :
    Bytes → List Bytes → List Bytes
  | _, [] => []
  | prev, b :: bs => xorBytes (aesDecB key b) prev :: cbcDecList aesDecB key b bs

/-- `aes256Encode`: PKCS#5/7 padding followed by AES-CBC encryption.  The
block cipher for a given key is the abstract `aesEncB`; `aes.NewCipher`
rejects key lengths other than 16, 24 or 32, and the CBC layer panics on a
bad IV length or input that is not a whole number of blocks. -/
def aes256Encode (aesEncB : Bytes → Bytes → Bytes)
    (plainText key iv : Bytes) (blockSize : Nat) : Except Err Bytes :=
  let padded := pkcs5Padding plainText blockSize
  if ¬(key.length = 16 ∨ key.length = 24 ∨ key.length = 32) then
    .error .aesKeySize
  else if iv.length ≠ 16 then .error .panicBadIVLength
  else if padded.length % 16 ≠ 0 then .error .panicNotFullBlocks
  else .ok (cbcEncList aesEncB key iv (toBlocks16 padded)).flatten

/-- `aes256Decode`: AES-CBC decryption followed by PKCS#5/7 unpadding. -/
def aes256Decode (aesDecB : Bytes → Bytes → Bytes)
    (cipherText key iv : Bytes) : Except Err Bytes :=
  if ¬(key.length = 16 ∨ key.length = 24 ∨ key.length = 32) then
    .error .aesKeySize
  else if iv.length ≠ 16 then .error .panicBadIVLength
  else if cipherText.length % 16 ≠ 0 then .error .panicNotFullBlocks
  else pkcs5Unpadding (cbcDecList aesDecB key iv (toBlocks16 cipherText)).flatten 16

/-- The package-level `crypt.SafeMode` variable, `true` by default. -/
def SafeMode : Bool := true

/-- `crypt.Decrypt`: algorithm-tag compatibility checks (legacy
HMAC-authenticated envelope against an unauthenticated key is a hard
rejection, any other tag mismatch a bad-encryption-type error), MAC
presence/length checks, HMAC-SHA256 comparison over IV plus ciphertext, and
only then AES-CBC decryption with unpadding.  `hmacF value key` abstracts
`helpers.HMACSum(value, key, sha256.New)`, `aesDecB` the AES block cipher's
decryption direction. -/
def Decrypt (hmacF : Bytes → Bytes → Bytes) (aesDecB : Bytes → Bytes → Bytes)
    (encString : EncryptedString) (key : Key) : Except Err Bytes :=
  if encString.Key.EncryptionType = AesCbc128_HmacSha256_B64 ∧
      key.EncryptionType = AesCbc256_B64 then
    .error .unsupportedOldScheme
  else if encString.Key.EncryptionType ≠ key.EncryptionType then
    .error .badEncryptionType
  else if encString.Hmac.length = 0 ∧ 0 < key.MacKey.length then
    .error .hmacMissing
  else if encString.Hmac.length ≠ key.MacKey.length then
    .error .hmacLengthsDiffer
  else if hmacF (encString.IV ++ encString.Data) key.MacKey ≠ encString.Hmac then
    .error .hmacComparisonFailed
  else
    (aes256Decode aesDecB encString.Data key.EncryptionKey encString.IV).mapError
      Err.aesDecoding

/-- `crypt.Encrypt` with the randomly drawn IV made explicit: validates the
plaintext, encryption key and IV length, AES-CBC-encrypts, computes the
HMAC-SHA256 over IV plus ciphertext with the key's MacKey (unconditionally),
builds the envelope, and in safe mode decrypts it again and compares with
the original plaintext. -/
def Encrypt (hmacF aesEncB aesDecB : Bytes → Bytes → Bytes)
    (randomIV plainValue : Bytes) (key : Key) : Except Err EncryptedString :=
  if plainValue.length = 0 then .error .emptyPlainValue
  else if key.EncryptionKey.length = 0 then .error .noEncryptionKey
  else if randomIV.length ≠ 16 then .error .badIVLength
  else
    match aes256Encode aesEncB plainValue key.EncryptionKey randomIV 16 with
    | .error e => .error (.aesEncoding e)
    | .ok data =>
      let hmac := hmacF (randomIV ++ data) key.MacKey
      let res : EncryptedString := ⟨randomIV, data, hmac, key⟩
      if SafeMode then
        match Decrypt hmacF aesDecB res key with
        | .error e => .error (.reverseDecrypt e)
        | .ok safeDecryptedValue =>
          if safeDecryptedValue ≠ plainValue then .error .safeCheckFailed
          else .ok res
      else .ok res

/-- Modelled from the spec (§4.1): `symmetrickey.NewFromRawBytes` accepts
exactly 32 or 64 bytes and splits them into the encryption sub-key (first
32 bytes) and the authentication sub-key (last 32 bytes, empty for 32-byte
keys, which are tagged as the legacy unauthenticated scheme).  The package
itself is not under `src/`. -/
def NewFromRawBytes (b : Bytes) : Except Err Key :=
  if b.length = 32 then .ok ⟨b, b, [], AesCbc256_B64⟩
  else if b.length = 64 then
    .ok ⟨b, b.take 32, b.drop 32, AesCbc256_HmacSha256_B64⟩
  else .error .invalidKeyLength

/-- Modelled from the spec (§4.1): `symmetrickey.Key.StretchKey` derives a
64-byte key from a 32-byte one via HKDF-Expand with the fixed context labels
`"enc"` and `"mac"`, each expanded to 32 bytes; `hkdfF value info n`
abstracts `helpers.HKDFExpand(value, info, sha256.New, n)`. -/
def StretchKey (hkdfF : Bytes → Bytes → Nat → Bytes) (k : Key) : Key :=
  let enc := hkdfF k.Key (("enc").toList.map Char.toNat) 32
  let mac := hkdfF k.Key (("mac").toList.map Char.toNat) 32
  ⟨enc ++ mac, enc, mac, AesCbc256_HmacSha256_B64⟩

/-- Shared tail of `DecryptEncryptionKey`: wrap a decryption outcome,
then rebuild a symmetric key from the decrypted raw bytes. -/
def decKeyFinish (r : Except Err Bytes) : Except Err Key :=
  match r with
  | .error e => .error (.errDecryptingEncKey e)
  | .ok decEncKey =>
    match NewFromRawBytes decEncKey with
    | .error e => .error (.unsupportedDecKey e)
    | .ok k => .ok k

/-- `crypt.DecryptEncryptionKey`: parse the envelope, dispatch on its
algorithm tag (legacy unauthenticated AES-CBC decrypts directly with the
prelogin key, the HMAC-authenticated scheme decrypts with the stretched
prelogin key, anything else is unsupported), then wrap the decrypted bytes
as a symmetric key. -/
def DecryptEncryptionKey (hmacF aesDecB : Bytes → Bytes → Bytes)
    (hkdfF : Bytes → Bytes → Nat → Bytes) (encryptedKeyStr : List Char)
    (key : Key) : Except Err Key :=
  match NewFromEncryptedValue encryptedKeyStr with
  | .error e => .error (.errDecryptingEncKey e)
  | .ok encKeyCipher =>
    if encKeyCipher.Key.EncryptionType = AesCbc256_B64 then
      decKeyFinish (Decrypt hmacF aesDecB encKeyCipher key)
    else if encKeyCipher.Key.EncryptionType = AesCbc256_HmacSha256_B64 then
      decKeyFinish (Decrypt hmacF aesDecB encKeyCipher (StretchKey hkdfF key))
    else .error (.unsupportedEncKeyType encKeyCipher.Key.EncryptionType)

/-- Byte view of a Go string (faithful for the ASCII inputs at issue). -/
def strBytes (s : List Char) : Bytes := s.map Char.toNat

/-- `crypt.HashPassword`: PBKDF2-HMAC-SHA256 with the key's raw bytes as
the password argument and the password string as the salt argument, one
iteration (two for local authorization), 32 bytes of output, base64-encoded.
`pbkdf2F password salt iter keyLen` abstracts `pbkdf2.Key`. -/
def HashPassword (pbkdf2F : Bytes → Bytes → Nat → Nat → Bytes)
    (password : List Char) (key : Key) (localAuthorization : Bool) :
    List Char :=
  let iterations := if localAuthorization then 2 else 1
  b64Encode (pbkdf2F key.Key (strBytes password) iterations 32)

theorem b64DecVal_encChar : ∀ n, n < 64 → b64DecVal (b64EncChar n) = some n := by
  decide

theorem b64EncChar_ne_pad : ∀ n, n < 64 → b64EncChar n ≠ '=' := by decide

theorem b64EncChar_mem (n : Nat) : b64EncChar n ∈ b64Alphabet := by
  by_cases h : n < 64
  · exact (by decide : ∀ m, m < 64 → b64EncChar m ∈ b64Alphabet) n h
  · unfold b64EncChar
    rw [List.getD_eq_default]
    · decide
    · have : b64Alphabet.length = 64 := by decide
      omega

theorem mem_b64Encode_alpha :
    ∀ (l : Bytes), ∀ c ∈ b64Encode l, c ∈ b64Alphabet ∨ c = '=' := by
  intro l
  induction l using b64Encode.induct with
  | case1 => intro c hc; simp [b64Encode] at hc
  | case2 a =>
    intro c hc
    simp only [b64Encode, List.mem_cons, List.not_mem_nil, or_false] at hc
    rcases hc with h | h | h | h <;> subst h
    · exact .inl (b64EncChar_mem _)
    · exact .inl (b64EncChar_mem _)
    · exact .inr rfl
    · exact .inr rfl
  | case3 a b =>
    intro c hc
    simp only [b64Encode, List.mem_cons, List.not_mem_nil, or_false] at hc
    rcases hc with h | h | h | h <;> subst h
    · exact .inl (b64EncChar_mem _)
    · exact .inl (b64EncChar_mem _)
    · exact .inl (b64EncChar_mem _)
    · exact .inr rfl
  | case4 a b c rest ih =>
    intro x hx
    simp only [b64Encode, List.mem_cons] at hx
    rcases hx with h | h | h | h | h
    · exact h ▸ .inl (b64EncChar_mem _)
    · exact h ▸ .inl (b64EncChar_mem _)
    · exact h ▸ .inl (b64EncChar_mem _)
    · exact h ▸ .inl (b64EncChar_mem _)
    · exact ih x h

theorem b64Encode_no_dot (l : Bytes) : '.' ∉ b64Encode l := by
  intro h
  rcases mem_b64Encode_alpha l '.' h with h1 | h1
  · exact (by decide : '.' ∉ b64Alphabet) h1
  · exact absurd h1 (by decide)

theorem b64Encode_no_pipe (l : Bytes) : '|' ∉ b64Encode l := by
  intro h
  rcases mem_b64Encode_alpha l '|' h with h1 | h1
  · exact (by decide : '|' ∉ b64Alphabet) h1
  · exact absurd h1 (by decide)

theorem b64Encode_filter_newline (l : Bytes) :
    (b64Encode l).filter (fun c => c != '\r' && c != '\n') = b64Encode l := by
  rw [List.filter_eq_self]
  intro a ha
  rcases mem_b64Encode_alpha l a ha with h | h
  · exact (by decide : ∀ x ∈ b64Alphabet, (x != '\r' && x != '\n') = true) a h
  · subst h; decide

theorem b64DecodeQuads_encode :
    ∀ (l : Bytes), (∀ x ∈ l, x < 256) → b64DecodeQuads (b64Encode l) = some l := by
  intro l
  induction l using b64Encode.induct with
  | case1 => intro _; rfl
  | case2 a =>
    intro h
    have ha : a < 256 := h a (by simp)
    have h1 : a / 4 < 64 := by omega
    have h2 : a % 4 * 16 < 64 := by omega
    simp only [b64Encode, b64DecodeQuads, b64DecVal_encChar _ h1,
      b64DecVal_encChar _ h2, if_pos rfl, and_self, if_true, reduceIte]
    simp
    omega
  | case3 a b =>
    intro h
    have ha : a < 256 := h a (by simp)
    have hb : b < 256 := h b (by simp)
    have h1 : a / 4 < 64 := by omega
    have h2 : a % 4 * 16 + b / 16 < 64 := by omega
    have h3 : b % 16 * 4 < 64 := by omega
    simp only [b64Encode, b64DecodeQuads, b64DecVal_encChar _ h1,
      b64DecVal_encChar _ h2, b64DecVal_encChar _ h3,
      if_neg (b64EncChar_ne_pad _ h3), if_pos rfl, reduceIte]
    simp
    omega
  | case4 a b c rest ih =>
    intro h
    have ha : a < 256 := h a (by simp)
    have hb : b < 256 := h b (by simp)
    have hc : c < 256 := h c (by simp)
    have h1 : a / 4 < 64 := by omega
    have h2 : a % 4 * 16 + b / 16 < 64 := by omega
    have h3 : b % 16 * 4 + c / 64 < 64 := by omega
    have h4 : c % 64 < 64 := by omega
    have hrest : ∀ x ∈ rest, x < 256 := fun x hx => h x (by simp [hx])
    simp only [b64Encode, b64DecodeQuads, b64DecVal_encChar _ h1,
      b64DecVal_encChar _ h2, b64DecVal_encChar _ h3, b64DecVal_encChar _ h4,
      if_neg (b64EncChar_ne_pad _ h3), if_neg (b64EncChar_ne_pad _ h4),
      ih hrest, Option.map_some]
    simp
    omega

theorem b64Decode_encode (l : Bytes) (h : ∀ x ∈ l, x < 256) :
    b64Decode (b64Encode l) = some l := by
  rw [b64Decode, b64Encode_filter_newline, b64DecodeQuads_encode l h]

theorem splitOn_no_sep (c : Char) (l : List Char) (h : c ∉ l) :
    l.splitOn c = [l] := by
  show l.splitOnP (· == c) = [l]
  apply List.splitOnP_eq_single
  intro x hx
  simp only [beq_iff_eq]
  intro he
  exact h (he ▸ hx)

theorem splitOn_sep_append (c : Char) (l₁ l₂ : List Char) (h : c ∉ l₁) :
    (l₁ ++ c :: l₂).splitOn c = l₁ :: l₂.splitOn c := by
  have hall : ∀ x ∈ l₁, ¬((· == c) x = true) := by
    intro x hx
    simp only [beq_iff_eq]
    intro he
    exact h (he ▸ hx)
  show (l₁ ++ c :: l₂).splitOnP (· == c) = l₁ :: l₂.splitOnP (· == c)
  exact List.splitOnP_first (· == c) l₁ hall c (by simp) l₂

theorem decrypt_err_of_macKey_nil (hmacF aesDecB : Bytes → Bytes → Bytes)
    (e : EncryptedString) (k : Key)
    (hlen : (hmacF (e.IV ++ e.Data) k.MacKey).length = 32)
    (hk : k.MacKey = []) : isErr (Decrypt hmacF aesDecB e k) = true := by
  have hk32 : ¬(hmacF (e.IV ++ e.Data) [] = []) := by
    intro heq
    rw [hk, heq] at hlen
    simp at hlen
  have hfalse : ¬(k.EncryptionType = AesCbc128_HmacSha256_B64 ∧
      k.EncryptionType = AesCbc256_B64) := by
    rintro ⟨x, y⟩
    rw [x] at y
    exact absurd y (by decide)
  by_cases h1 : e.Key.EncryptionType = AesCbc128_HmacSha256_B64 ∧
      k.EncryptionType = AesCbc256_B64
  · simp [Decrypt, h1, isErr]
  · by_cases h2 : e.Key.EncryptionType = k.EncryptionType
    · by_cases h3 : e.Hmac = []
      · simp [Decrypt, h1, h2, h3, hk, hk32, hfalse, isErr]
      · have hl : e.Hmac.length ≠ k.MacKey.length := by
          rw [hk]
          simpa using h3
        simp [Decrypt, h1, h2, h3, hk, hl, hfalse, isErr]
    · simp [Decrypt, h1, h2, isErr]

/-- Claim C2: when the key's authentication sub-key is non-empty (and the
algorithm tags of envelope and key agree, so that the tag compatibility
stage has passed), `Decrypt` verifies the MAC strictly before any AES
decryption: a missing MAC yields the MAC-missing error, a MAC of the wrong
length the length-mismatch error, and a recomputed HMAC-SHA256 over
IV plus ciphertext that differs from the envelope's MAC the
verification-failure error — in each case for every block-cipher decryption
function `aesDecB`, hence without invoking block-cipher decryption. -/
theorem C2_mac_checked_before_decrypt (hmacF aesDecB : Bytes → Bytes → Bytes)
    (e : EncryptedString) (k : Key)
    (htag : e.Key.EncryptionType = k.EncryptionType) (hmk : k.MacKey ≠ []) :
    (e.Hmac = [] → Decrypt hmacF aesDecB e k = .error .hmacMissing)
    ∧ (e.Hmac ≠ [] → e.Hmac.length ≠ k.MacKey.length →
        Decrypt hmacF aesDecB e k = .error .hmacLengthsDiffer)
    ∧ (e.Hmac.length = k.MacKey.length →
        hmacF (e.IV ++ e.Data) k.MacKey ≠ e.Hmac →
        Decrypt hmacF aesDecB e k = .error .hmacComparisonFailed) := by
  have h1 : ¬(e.Key.EncryptionType = AesCbc128_HmacSha256_B64 ∧
      k.EncryptionType = AesCbc256_B64) := by
    rintro ⟨x, y⟩
    rw [htag] at x
    rw [x] at y
    exact absurd y (by decide)
  have hpos : 0 < k.MacKey.length := List.length_pos.mpr hmk
  have h1k : ¬(k.EncryptionType = AesCbc128_HmacSha256_B64 ∧
      k.EncryptionType = AesCbc256_B64) := by
    rintro ⟨x, y⟩
    rw [x] at y
    exact absurd y (by decide)
  have hmk2 : ¬(k.MacKey = [] ∧ 0 < k.MacKey.length) := by
    rintro ⟨x, y⟩
    rw [x] at y
    simp at y
  refine ⟨?_, ?_, ?_⟩
  · intro h3
    simp [Decrypt, h1k, htag, h3, hpos]
  · intro h3 h4
    have hne : ¬(e.Hmac = [] ∧ 0 < k.MacKey.length) := by
      intro hand
      exact h3 hand.1
    simp [Decrypt, h1k, htag, hne, h4]
  · intro h3 h4
    simp [Decrypt, h1k, htag, hmk2, h3, h4]

theorem C2_witness :
    Decrypt (fun _ _ => List.replicate 32 0) (fun _ b => b)
      ⟨[], [], [], ⟨[], [], [], 2⟩⟩ ⟨[], [], [1], 2⟩ = .error .hmacMissing :=
  (C2_mac_checked_before_decrypt (fun _ _ => List.replicate 32 0) (fun _ b => b)
    ⟨[], [], [], ⟨[], [], [], 2⟩⟩ ⟨[], [], [1], 2⟩ (by decide) (by decide)).1 rfl

/-- Claim C9: `Decrypt` performs the algorithm-tag compatibility check
before anything else: the legacy combination (HMAC-authenticated envelope
tag against an unauthenticated key tag) is rejected as the hard
unsupported-old-scheme error, and any other tag disagreement yields the
bad-encryption-type error, in both cases for every HMAC and block-cipher
function, hence without any MAC computation or decryption. -/
theorem C9_tag_check_first (hmacF aesDecB : Bytes → Bytes → Bytes)
    (e : EncryptedString) (k : Key) :
    (e.Key.EncryptionType = AesCbc128_HmacSha256_B64 ∧
        k.EncryptionType = AesCbc256_B64 →
      Decrypt hmacF aesDecB e k = .error .unsupportedOldScheme)
    ∧ (e.Key.EncryptionType ≠ k.EncryptionType →
        ¬(e.Key.EncryptionType = AesCbc128_HmacSha256_B64 ∧
          k.EncryptionType = AesCbc256_B64) →
        Decrypt hmacF aesDecB e k = .error .badEncryptionType) := by
  constructor
  · intro h
    simp [Decrypt, h]
  · intro h1 h2
    simp [Decrypt, h1, h2]

theorem C9_witness :
    Decrypt (fun _ _ => List.replicate 32 0) (fun _ b => b)
      ⟨[1], [2], [3], ⟨[], [], [], 1⟩⟩ ⟨[], [], [], 0⟩ =
      .error .unsupportedOldScheme :=
  (C9_tag_check_first (fun _ _ => List.replicate 32 0) (fun _ b => b)
    ⟨[1], [2], [3], ⟨[], [], [], 1⟩⟩ ⟨[], [], [], 0⟩).1 (by decide)

/-- Claim C10: for every key whose authentication sub-key is empty and
every envelope, `Decrypt` returns an error and never plaintext: the length
check forces the envelope's MAC to be empty, yet the function
unconditionally computes a 32-byte HMAC-SHA256 (`hlen` records the digest
length of HMAC-SHA256, even under an empty MAC key) and compares it with
that empty MAC, so the comparison can never succeed and legacy
unauthenticated decryption always fails. -/
theorem C10_decrypt_empty_macKey_always_errors
    (hmacF aesDecB : Bytes → Bytes → Bytes)
    (hlen : ∀ value key, (hmacF value key).length = 32)
    (e : EncryptedString) (k : Key) (hk : k.MacKey = []) :
    isErr (Decrypt hmacF aesDecB e k) = true :=
  decrypt_err_of_macKey_nil hmacF aesDecB e k (hlen _ _) hk

theorem C10_witness :
    isErr (Decrypt (fun _ _ => List.replicate 32 0) (fun _ b => b)
      ⟨[1], [2], [], ⟨[], [], [], 0⟩⟩
      ⟨List.replicate 32 0, List.replicate 32 0, [], 0⟩) = true :=
  C10_decrypt_empty_macKey_always_errors (fun _ _ => List.replicate 32 0)
    (fun _ b => b) (fun _ _ => by simp)
    ⟨[1], [2], [], ⟨[], [], [], 0⟩⟩
    ⟨List.replicate 32 0, List.replicate 32 0, [], 0⟩ rfl

theorem eq_error_of_isErr {α : Type} {r : Except Err α} (h : isErr r = true) :
    ∃ er, r = .error er := by
  cases r with
  | error er => exact ⟨er, rfl⟩
  | ok v => simp [isErr] at h

theorem encrypt_err_of_macKey_nil (hmacF aesEncB aesDecB : Bytes → Bytes → Bytes)
    (hlen : ∀ value key, (hmacF value key).length = 32)
    (iv p : Bytes) (k : Key) (hk : k.MacKey = []) :
    isErr (Encrypt hmacF aesEncB aesDecB iv p k) = true := by
  by_cases hp : p.length = 0
  · simp [Encrypt, hp, isErr]
  · by_cases he : k.EncryptionKey.length = 0
    · simp [Encrypt, hp, he, isErr]
    · by_cases hiv : iv.length ≠ 16
      · simp [Encrypt, hp, he, hiv, isErr]
      · cases hres : aes256Encode aesEncB p k.EncryptionKey iv 16 with
        | error er => simp [Encrypt, hp, he, hiv, hres, isErr]
        | ok data =>
          obtain ⟨er, her⟩ := eq_error_of_isErr
            (decrypt_err_of_macKey_nil hmacF aesDecB
              ⟨iv, data, hmacF (iv ++ data) k.MacKey, k⟩ k (hlen _ _) hk)
          simp [Encrypt, hp, he, hiv, hres, SafeMode, her, isErr]

/-- Claim C3 counterexample: for a key with an empty authentication sub-key
(a 32-byte legacy key) and any valid inputs, `Encrypt` never returns an
envelope without a MAC — at this concrete input it returns no envelope at
all, because the unconditionally computed 32-byte HMAC makes its safe-mode
reverse decryption fail. -/
theorem C3_counterexample :
    ¬ ∃ env, Encrypt (fun _ _ => List.replicate 32 0) (fun _ b => b)
      (fun _ b => b) (List.replicate 16 0) [1]
      ⟨List.replicate 32 0, List.replicate 32 0, [], 0⟩ = .ok env ∧
      env.Hmac = [] := by
  rintro ⟨env, h1, h2⟩
  have hev : Encrypt (fun _ _ => List.replicate 32 0) (fun _ b => b)
      (fun _ b => b) (List.replicate 16 0) [1]
      ⟨List.replicate 32 0, List.replicate 32 0, [], 0⟩ =
      .error (.reverseDecrypt .hmacLengthsDiffer) := by decide
  rw [hev] at h1
  exact Except.noConfusion h1

/-- Claim C3 as amended: `Encrypt` computes the HMAC-SHA256 over IV plus
ciphertext with the key's (possibly empty) authentication sub-key and
attaches it unconditionally — every envelope it returns carries that MAC,
which is never empty — and for keys with an empty authentication sub-key it
returns an error rather than a MAC-less envelope. -/
theorem C3_hmac_attached_unconditionally
    (hmacF aesEncB aesDecB : Bytes → Bytes → Bytes)
    (hlen : ∀ value key, (hmacF value key).length = 32)
    (iv p : Bytes) (k : Key) :
    (∀ env, Encrypt hmacF aesEncB aesDecB iv p k = .ok env →
      env.IV = iv ∧ env.Key = k ∧
      env.Hmac = hmacF (iv ++ env.Data) k.MacKey ∧ env.Hmac ≠ [])
    ∧ (k.MacKey = [] → isErr (Encrypt hmacF aesEncB aesDecB iv p k) = true) := by
  constructor
  · intro env henv
    by_cases hp : p.length = 0
    · simp [Encrypt, hp] at henv
    · by_cases he : k.EncryptionKey.length = 0
      · simp [Encrypt, hp, he] at henv
      · by_cases hiv : iv.length ≠ 16
        · simp [Encrypt, hp, he, hiv] at henv
        · cases hres : aes256Encode aesEncB p k.EncryptionKey iv 16 with
          | error er => simp [Encrypt, hp, he, hiv, hres] at henv
          | ok data =>
            cases hdec : Decrypt hmacF aesDecB
                ⟨iv, data, hmacF (iv ++ data) k.MacKey, k⟩ k with
            | error er => simp [Encrypt, hp, he, hiv, hres, SafeMode, hdec] at henv
            | ok dec =>
              by_cases hne : dec ≠ p
              · simp [Encrypt, hp, he, hiv, hres, SafeMode, hdec, hne] at henv
              · simp [Encrypt, hp, he, hiv, hres, SafeMode, hdec, hne] at henv
                subst henv
                refine ⟨rfl, rfl, rfl, ?_⟩
                intro h0
                have h32 := hlen (iv ++ data) k.MacKey
                rw [show hmacF (iv ++ data) k.MacKey = [] from h0] at h32
                simp at h32
  · exact encrypt_err_of_macKey_nil hmacF aesEncB aesDecB hlen iv p k

theorem C3_witness :
    (∀ env, Encrypt (fun _ _ => List.replicate 32 0) (fun _ b => b)
        (fun _ b => b) (List.replicate 16 0) [1]
        ⟨List.replicate 32 0, List.replicate 32 0, [], 0⟩ = .ok env →
      env.IV = List.replicate 16 0 ∧
      env.Key = ⟨List.replicate 32 0, List.replicate 32 0, [], 0⟩ ∧
      env.Hmac = List.replicate 32 0 ∧ env.Hmac ≠ [])
    ∧ isErr (Encrypt (fun _ _ => List.replicate 32 0) (fun _ b => b)
        (fun _ b => b) (List.replicate 16 0) [1]
        ⟨List.replicate 32 0, List.replicate 32 0, [], 0⟩) = true := by
  have h := C3_hmac_attached_unconditionally (fun _ _ => List.replicate 32 0)
    (fun _ b => b) (fun _ b => b) (fun _ _ => by simp) (List.replicate 16 0) [1]
    ⟨List.replicate 32 0, List.replicate 32 0, [], 0⟩
  exact ⟨fun env henv => h.1 env henv, h.2 rfl⟩

/-- Claim C7 counterexample: a decrypted block whose final byte (the
padding length, here 32) exceeds the 16-byte block size is not always
rejected — when that byte equals the total length, `pkcs5Unpadding` takes
the equality shortcut and returns an empty plaintext instead of a
padding error. -/
theorem C7_counterexample :
    (List.replicate 31 (0 : Nat) ++ [32]).getLast? = some 32 ∧
    16 < 32 ∧
    pkcs5Unpadding (List.replicate 31 (0 : Nat) ++ [32]) 16 = .ok [] := by
  decide

/-- Claim C7 as amended: once the MAC comparison succeeds (tags agree, MAC
lengths agree, recomputed HMAC equals the envelope's MAC), `Decrypt` is
exactly AES-CBC decryption followed by PKCS#5/7 unpadding; and the
unpadding rejects a padding length exceeding the 16-byte block size with a
padding error unless that length equals the whole decrypted length, in
which case it returns an empty plaintext. -/
theorem C7_unpad_after_mac (hmacF aesDecB : Bytes → Bytes → Bytes)
    (e : EncryptedString) (k : Key)
    (htag : e.Key.EncryptionType = k.EncryptionType)
    (hl : e.Hmac.length = k.MacKey.length)
    (hm : hmacF (e.IV ++ e.Data) k.MacKey = e.Hmac) :
    Decrypt hmacF aesDecB e k =
      (aes256Decode aesDecB e.Data k.EncryptionKey e.IV).mapError Err.aesDecoding
    ∧ (∀ (src : Bytes) (last : Nat), src.getLast? = some last → 16 < last →
        last ≠ src.length → pkcs5Unpadding src 16 = .error .badPaddingSize)
    ∧ (∀ (src : Bytes) (last : Nat), src.getLast? = some last →
        last = src.length → pkcs5Unpadding src 16 = .ok []) := by
  have h1k : ¬(k.EncryptionType = AesCbc128_HmacSha256_B64 ∧
      k.EncryptionType = AesCbc256_B64) := by
    rintro ⟨x, y⟩
    rw [x] at y
    exact absurd y (by decide)
  have hne : ¬(e.Hmac = [] ∧ 0 < k.MacKey.length) := by
    rintro ⟨x, y⟩
    rw [x] at hl
    simp at hl
    omega
  refine ⟨?_, ?_, ?_⟩
  · simp [Decrypt, h1k, htag, hne, hl, hm]
  · intro src last hlast h16 hneq
    simp [pkcs5Unpadding, hlast, hneq, h16]
  · intro src last hlast heq
    simp [pkcs5Unpadding, hlast, heq]

theorem C7_witness :
    Decrypt (fun _ _ => []) (fun _ b => b) ⟨[], [], [], ⟨[], [], [], 0⟩⟩
      ⟨[], [], [], 0⟩ =
      (aes256Decode (fun _ b => b) [] [] []).mapError Err.aesDecoding
    ∧ pkcs5Unpadding [1, 2, 17] 16 = .error .badPaddingSize := by
  have h := C7_unpad_after_mac (fun _ _ => []) (fun _ b => b)
    ⟨[], [], [], ⟨[], [], [], 0⟩⟩ ⟨[], [], [], 0⟩ rfl rfl rfl
  exact ⟨h.1, h.2.1 [1, 2, 17] 17 rfl (by decide) (by decide)⟩

theorem b64Encode_length (l : Bytes) :
    (b64Encode l).length = 4 * ((l.length + 2) / 3) := by
  induction l using b64Encode.induct <;> simp [b64Encode, *] <;> omega

/-- Claim C8: `HashPassword` is the base64 encoding of a 32-byte
PBKDF2-HMAC-SHA256 output whose password argument is the key's raw bytes
and whose salt argument is the password string, with 1 iteration for
server authentication and 2 for local authorization (`hlen` records that
PBKDF2 returns exactly the requested number of bytes); the resulting base64
string therefore has 44 characters. -/
theorem C8_hash_password (pbkdf2F : Bytes → Bytes → Nat → Nat → Bytes)
    (hlen : ∀ pw salt iter dkLen, (pbkdf2F pw salt iter dkLen).length = dkLen)
    (password : List Char) (k : Key) (localAuthorization : Bool) :
    HashPassword pbkdf2F password k localAuthorization =
      b64Encode (pbkdf2F k.Key (strBytes password)
        (if localAuthorization then 2 else 1) 32)
    ∧ (pbkdf2F k.Key (strBytes password)
        (if localAuthorization then 2 else 1) 32).length = 32
    ∧ (HashPassword pbkdf2F password k localAuthorization).length = 44 := by
  refine ⟨rfl, hlen _ _ _ _, ?_⟩
  show (b64Encode _).length = 44
  rw [b64Encode_length, hlen]

theorem C8_witness :
    HashPassword (fun _ _ _ dkLen => List.replicate dkLen 0) (("pw").toList)
      ⟨[1], [], [], 0⟩ false = b64Encode (List.replicate 32 0)
    ∧ (HashPassword (fun _ _ _ dkLen => List.replicate dkLen 0) (("pw").toList)
      ⟨[1], [], [], 0⟩ false).length = 44 := by
  have h := C8_hash_password (fun _ _ _ dkLen => List.replicate dkLen 0)
    (fun _ _ _ _ => by simp) (("pw").toList) ⟨[1], [], [], 0⟩ false
  exact ⟨h.1, h.2.2⟩

/-- Claim C4: `DecryptEncryptionKey` dispatches on the parsed envelope's
algorithm tag: parse failures propagate; the legacy unauthenticated AES-CBC
tag decrypts directly with the given prelogin key; the HMAC-authenticated
tag decrypts with the stretched prelogin key; every other parsed tag is
rejected as an unsupported key scheme without decrypting (the result is the
same for all decryption functions). -/
theorem C4_decrypt_encryption_key_dispatch (hmacF aesDecB : Bytes → Bytes → Bytes)
    (hkdfF : Bytes → Bytes → Nat → Bytes) (s : List Char) (key : Key) :
    (∀ er, NewFromEncryptedValue s = .error er →
      DecryptEncryptionKey hmacF aesDecB hkdfF s key =
        .error (.errDecryptingEncKey er))
    ∧ ∀ enc, NewFromEncryptedValue s = .ok enc →
        (enc.Key.EncryptionType = AesCbc256_B64 →
          DecryptEncryptionKey hmacF aesDecB hkdfF s key =
            decKeyFinish (Decrypt hmacF aesDecB enc key))
        ∧ (enc.Key.EncryptionType = AesCbc256_HmacSha256_B64 →
          DecryptEncryptionKey hmacF aesDecB hkdfF s key =
            decKeyFinish (Decrypt hmacF aesDecB enc (StretchKey hkdfF key)))
        ∧ (enc.Key.EncryptionType ≠ AesCbc256_B64 →
           enc.Key.EncryptionType ≠ AesCbc256_HmacSha256_B64 →
          DecryptEncryptionKey hmacF aesDecB hkdfF s key =
            .error (.unsupportedEncKeyType enc.Key.EncryptionType)) := by
  constructor
  · intro er her
    simp [DecryptEncryptionKey, her]
  · intro enc henc
    refine ⟨?_, ?_, ?_⟩
    · intro ht
      simp [DecryptEncryptionKey, henc, ht]
    · intro ht
      simp [DecryptEncryptionKey, henc, ht,
        show AesCbc256_HmacSha256_B64 ≠ AesCbc256_B64 by decide]
    · intro h1 h2
      simp [DecryptEncryptionKey, henc, h1, h2]

theorem C4_witness :
    DecryptEncryptionKey (fun _ _ => List.replicate 32 0) (fun _ b => b)
      (fun _ _ n => List.replicate n 1) (("3.AQ==").toList) ⟨[], [], [], 0⟩ =
      .error (.unsupportedEncKeyType 3) := by
  have h := (C4_decrypt_encryption_key_dispatch (fun _ _ => List.replicate 32 0)
    (fun _ b => b) (fun _ _ n => List.replicate n 1) (("3.AQ==").toList)
    ⟨[], [], [], 0⟩).2 ⟨[], [1], [], ⟨[], [], [], 3⟩⟩ (by decide)
  exact h.2.2 (by decide) (by decide)

theorem decodePieces_tag (t : Int) (ivS dataS hmacS : List Char)
    (e : EncryptedString) (h : decodePieces t ivS dataS hmacS = .ok e) :
    e.Key.EncryptionType = t := by
  cases hiv : b64Decode ivS with
  | none => simp [decodePieces, hiv] at h
  | some iv =>
    cases hdata : b64Decode dataS with
    | none => simp [decodePieces, hiv, hdata] at h
    | some data =>
      cases hhmac : b64Decode hmacS with
      | none => simp [decodePieces, hiv, hdata, hhmac] at h
      | some hmac =>
        simp only [decodePieces, hiv, hdata, hhmac, Except.ok.injEq] at h
        rw [← h]

theorem NFEV_after_header (s : List Char) (hs : s ≠ []) (t : Int)
    (ps : List (List Char)) (hph : parseHeader s = .ok (t, ps)) :
    NewFromEncryptedValue s =
      (if t = AesCbc128_HmacSha256_B64 ∨ t = AesCbc256_HmacSha256_B64 then
        if ps.length ≠ 3 then .error (.badPieceCount 3 ps.length)
        else decodePieces t (ps.getD 0 []) (ps.getD 1 []) (ps.getD 2 [])
      else if t = AesCbc256_B64 then
        if ps.length ≠ 2 then .error (.badPieceCount 2 ps.length)
        else decodePieces t (ps.getD 0 []) (ps.getD 1 []) []
      else if t = Rsa2048_OaepSha256_B64 ∨ t = Rsa2048_OaepSha1_B64 then
        if ps.length ≠ 1 then .error (.badPieceCount 1 ps.length)
        else decodePieces t [] (ps.getD 0 []) []
      else .error .unsupportedEncType) := by
  simp [NewFromEncryptedValue, hs, hph]

/-- Claim C5: for every non-empty input without a tag prefix (the dot-split
does not have exactly two parts), the header analysis infers the tag from
the pipe-piece count (3 pieces give the legacy HMAC-authenticated AES-CBC
tag, anything else — in particular 2 pieces — the legacy unauthenticated
tag); and the accepted piece count is fully determined by the resulting
tag: RSA tags require exactly 1 piece, the unauthenticated AES-CBC tag
exactly 2, the HMAC-authenticated tags exactly 3, any other count being a
piece-count parse error, while a successful parse always exhibits the
matching count. -/
theorem C5_parse_piece_counts (s : List Char) (hs : s ≠ []) :
    ((s.splitOn '.').length ≠ 2 →
      parseHeader s = .ok
        ((if (s.splitOn '|').length = 3 then AesCbc128_HmacSha256_B64
          else AesCbc256_B64), s.splitOn '|'))
    ∧ (∀ t ps, parseHeader s = .ok (t, ps) →
        ((t = Rsa2048_OaepSha256_B64 ∨ t = Rsa2048_OaepSha1_B64) →
          ps.length ≠ 1 →
          NewFromEncryptedValue s = .error (.badPieceCount 1 ps.length))
        ∧ (t = AesCbc256_B64 → ps.length ≠ 2 →
          NewFromEncryptedValue s = .error (.badPieceCount 2 ps.length))
        ∧ ((t = AesCbc128_HmacSha256_B64 ∨ t = AesCbc256_HmacSha256_B64) →
          ps.length ≠ 3 →
          NewFromEncryptedValue s = .error (.badPieceCount 3 ps.length)))
    ∧ (∀ e, NewFromEncryptedValue s = .ok e →
        ∃ t ps, parseHeader s = .ok (t, ps) ∧ e.Key.EncryptionType = t ∧
          ((t = Rsa2048_OaepSha256_B64 ∨ t = Rsa2048_OaepSha1_B64) →
            ps.length = 1)
          ∧ (t = AesCbc256_B64 → ps.length = 2)
          ∧ ((t = AesCbc128_HmacSha256_B64 ∨ t = AesCbc256_HmacSha256_B64) →
            ps.length = 3)) := by
  refine ⟨?_, ?_, ?_⟩
  · intro hnd
    simp [parseHeader, hnd]
  · intro t ps hph
    have hbase := NFEV_after_header s hs t ps hph
    refine ⟨?_, ?_, ?_⟩
    · rintro (ht | ht) hcount <;> subst ht <;>
        simpa [AesCbc256_B64, AesCbc128_HmacSha256_B64, AesCbc256_HmacSha256_B64,
          Rsa2048_OaepSha256_B64, Rsa2048_OaepSha1_B64, hcount] using hbase
    · intro ht hcount
      subst ht
      simpa [AesCbc256_B64, AesCbc128_HmacSha256_B64, AesCbc256_HmacSha256_B64,
        Rsa2048_OaepSha256_B64, Rsa2048_OaepSha1_B64, hcount] using hbase
    · rintro (ht | ht) hcount <;> subst ht <;>
        simpa [AesCbc256_B64, AesCbc128_HmacSha256_B64, AesCbc256_HmacSha256_B64,
          Rsa2048_OaepSha256_B64, Rsa2048_OaepSha1_B64, hcount] using hbase
  · intro e he
    cases hph : parseHeader s with
    | error er =>
      rw [NewFromEncryptedValue, if_neg hs, hph] at he
      exact absurd he (by simp)
    | ok tps =>
      obtain ⟨t, ps⟩ := tps
      have hbase := NFEV_after_header s hs t ps hph
      refine ⟨t, ps, rfl, ?_⟩
      rw [hbase] at he
      by_cases h1 : t = AesCbc128_HmacSha256_B64 ∨ t = AesCbc256_HmacSha256_B64
      · rw [if_pos h1] at he
        by_cases hc : ps.length ≠ 3
        · rw [if_pos hc] at he
          exact absurd he (by simp)
        · rw [if_neg hc] at he
          refine ⟨decodePieces_tag _ _ _ _ _ he, ?_, ?_, fun _ => by omega⟩
          · rintro (ht | ht) <;> subst ht <;>
              rcases h1 with h1 | h1 <;> exact absurd h1 (by decide)
          · intro ht
            subst ht
            rcases h1 with h1 | h1 <;> exact absurd h1 (by decide)
      · rw [if_neg h1] at he
        by_cases h2 : t = AesCbc256_B64
        · rw [if_pos h2] at he
          by_cases hc : ps.length ≠ 2
          · rw [if_pos hc] at he
            exact absurd he (by simp)
          · rw [if_neg hc] at he
            refine ⟨decodePieces_tag _ _ _ _ _ he, ?_, fun _ => by omega, ?_⟩
            · rintro (ht | ht) <;> subst ht <;> exact absurd h2 (by decide)
            · rintro (ht | ht) <;> subst ht <;> exact absurd h2 (by decide)
        · by_cases h3 : t = Rsa2048_OaepSha256_B64 ∨ t = Rsa2048_OaepSha1_B64
          · rw [if_neg h2, if_pos h3] at he
            by_cases hc : ps.length ≠ 1
            · rw [if_pos hc] at he
              exact absurd he (by simp)
            · rw [if_neg hc] at he
              refine ⟨decodePieces_tag _ _ _ _ _ he, fun _ => by omega, ?_, ?_⟩
              · intro ht
                exact absurd ht h2
              · intro ht
                exact absurd ht h1
          · rw [if_neg h2, if_neg h3] at he
            exact absurd he (by simp)

theorem C5_witness :
    parseHeader (("YQ==|YQ==").toList) =
      .ok (AesCbc256_B64, (("YQ==|YQ==").toList).splitOn '|')
    ∧ NewFromEncryptedValue (("0.YQ==|YQ==|YQ==").toList) =
      .error (.badPieceCount 2 3) := by
  constructor
  · have h := (C5_parse_piece_counts (("YQ==|YQ==").toList) (by decide)).1
      (by decide)
    simpa using h
  · have h := ((C5_parse_piece_counts (("0.YQ==|YQ==|YQ==").toList)
      (by decide)).2.1 AesCbc256_B64
      ((("YQ==|YQ==|YQ==").toList).splitOn '|') (by decide)).2.1 rfl (by decide)
    simpa using h

/-- Claim C6 counterexample: for the constructed envelope with empty IV,
ciphertext `[1]`, MAC `[2]` and the unauthenticated AES-CBC tag, parsing
the serialized text (`0.AQ==|Ag==`) does not return the envelope — the two
serialized pieces are read back as IV and ciphertext, so
`Parse (Serialize e) ≠ e`. -/
theorem C6_counterexample :
    NewFromEncryptedValue (EncryptedString.string
      ⟨[], [1], [2], ⟨[], [], [], 0⟩⟩) ≠
      .ok ⟨[], [1], [2], ⟨[], [], [], 0⟩⟩ := by
  decide

theorem parseHeader_tagged (tagS rest : List Char) (t : Int)
    (h1 : '.' ∉ tagS) (h2 : '.' ∉ rest) (hp : parseInt8 tagS = some t) :
    parseHeader (tagS ++ '.' :: rest) = .ok (t, rest.splitOn '|') := by
  have hsplit : (tagS ++ '.' :: rest).splitOn '.' = [tagS, rest] := by
    rw [splitOn_sep_append '.' tagS rest h1, splitOn_no_sep '.' rest h2]
  simp [parseHeader, hsplit, hp]

theorem splitOn_pipe_three (A B C : List Char) (hA : '|' ∉ A) (hB : '|' ∉ B)
    (hC : '|' ∉ C) :
    (A ++ '|' :: (B ++ '|' :: C)).splitOn '|' = [A, B, C] := by
  rw [splitOn_sep_append '|' A _ hA, splitOn_sep_append '|' B C hB,
    splitOn_no_sep '|' C hC]

theorem splitOn_pipe_two (A B : List Char) (hA : '|' ∉ A) (hB : '|' ∉ B) :
    (A ++ '|' :: B).splitOn '|' = [A, B] := by
  rw [splitOn_sep_append '|' A B hA, splitOn_no_sep '|' B hB]

theorem no_dot_three (A B C : List Char) (hA : '.' ∉ A) (hB : '.' ∉ B)
    (hC : '.' ∉ C) : '.' ∉ A ++ '|' :: (B ++ '|' :: C) := by
  intro h
  simp only [List.mem_append, List.mem_cons] at h
  rcases h with h | h | h | h | h
  · exact hA h
  · exact absurd h (by decide)
  · exact hB h
  · exact absurd h (by decide)
  · exact hC h

theorem no_dot_two (A B : List Char) (hA : '.' ∉ A) (hB : '.' ∉ B) :
    '.' ∉ A ++ '|' :: B := by
  intro h
  simp only [List.mem_append, List.mem_cons] at h
  rcases h with h | h | h
  · exact hA h
  · exact absurd h (by decide)
  · exact hB h

theorem parse_string_three (t : Int) (iv data hmac : Bytes)
    (hdot : '.' ∉ intRepr t) (hp : parseInt8 (intRepr t) = some t)
    (ht : t = AesCbc128_HmacSha256_B64 ∨ t = AesCbc256_HmacSha256_B64)
    (hIV : ∀ x ∈ iv, x < 256) (hData : ∀ x ∈ data, x < 256)
    (hH : ∀ x ∈ hmac, x < 256) (hivne : iv ≠ []) (hhne : hmac ≠ []) :
    NewFromEncryptedValue
      (EncryptedString.string ⟨iv, data, hmac, ⟨[], [], [], t⟩⟩) =
      .ok ⟨iv, data, hmac, ⟨[], [], [], t⟩⟩ := by
  have hivpos : 0 < iv.length := List.length_pos.mpr hivne
  have hhpos : 0 < hmac.length := List.length_pos.mpr hhne
  have hstring : EncryptedString.string ⟨iv, data, hmac, ⟨[], [], [], t⟩⟩ =
      intRepr t ++ '.' ::
        (b64Encode iv ++ '|' :: (b64Encode data ++ '|' :: b64Encode hmac)) := by
    simp [EncryptedString.string, hivpos, hhpos]
  have hrestdot : '.' ∉
      b64Encode iv ++ '|' :: (b64Encode data ++ '|' :: b64Encode hmac) :=
    no_dot_three _ _ _ (b64Encode_no_dot iv) (b64Encode_no_dot data)
      (b64Encode_no_dot hmac)
  have hph : parseHeader (intRepr t ++ '.' ::
      (b64Encode iv ++ '|' :: (b64Encode data ++ '|' :: b64Encode hmac))) =
      .ok (t, [b64Encode iv, b64Encode data, b64Encode hmac]) := by
    rw [parseHeader_tagged _ _ t hdot hrestdot hp,
      splitOn_pipe_three (b64Encode iv) (b64Encode data) (b64Encode hmac)
        (b64Encode_no_pipe iv) (b64Encode_no_pipe data) (b64Encode_no_pipe hmac)]
  rw [hstring]
  rw [NFEV_after_header _ (by simp) t _ hph]
  rcases ht with ht | ht <;> subst ht <;>
    simp [AesCbc128_HmacSha256_B64, AesCbc256_HmacSha256_B64, decodePieces,
      b64Decode_encode iv hIV, b64Decode_encode data hData,
      b64Decode_encode hmac hH]

theorem parse_string_two (t : Int) (iv data : Bytes)
    (hdot : '.' ∉ intRepr t) (hp : parseInt8 (intRepr t) = some t)
    (ht : t = AesCbc256_B64)
    (hIV : ∀ x ∈ iv, x < 256) (hData : ∀ x ∈ data, x < 256)
    (hivne : iv ≠ []) :
    NewFromEncryptedValue
      (EncryptedString.string ⟨iv, data, [], ⟨[], [], [], t⟩⟩) =
      .ok ⟨iv, data, [], ⟨[], [], [], t⟩⟩ := by
  have hivpos : 0 < iv.length := List.length_pos.mpr hivne
  have hstring : EncryptedString.string ⟨iv, data, [], ⟨[], [], [], t⟩⟩ =
      intRepr t ++ '.' :: (b64Encode iv ++ '|' :: b64Encode data) := by
    simp [EncryptedString.string, hivpos, b64Encode]
  have hrestdot : '.' ∉ b64Encode iv ++ '|' :: b64Encode data :=
    no_dot_two _ _ (b64Encode_no_dot iv) (b64Encode_no_dot data)
  have hph : parseHeader
      (intRepr t ++ '.' :: (b64Encode iv ++ '|' :: b64Encode data)) =
      .ok (t, [b64Encode iv, b64Encode data]) := by
    rw [parseHeader_tagged _ _ t hdot hrestdot hp,
      splitOn_pipe_two (b64Encode iv) (b64Encode data)
        (b64Encode_no_pipe iv) (b64Encode_no_pipe data)]
  rw [hstring]
  rw [NFEV_after_header _ (by simp) t _ hph]
  subst ht
  simp [AesCbc128_HmacSha256_B64, AesCbc256_HmacSha256_B64, AesCbc256_B64,
    decodePieces, b64Decode_encode iv hIV, b64Decode_encode data hData,
    show b64Decode [] = some [] from rfl]

theorem parse_string_one (t : Int) (data : Bytes)
    (hdot : '.' ∉ intRepr t) (hp : parseInt8 (intRepr t) = some t)
    (ht : t = Rsa2048_OaepSha256_B64 ∨ t = Rsa2048_OaepSha1_B64)
    (hData : ∀ x ∈ data, x < 256) :
    NewFromEncryptedValue
      (EncryptedString.string ⟨[], data, [], ⟨[], [], [], t⟩⟩) =
      .ok ⟨[], data, [], ⟨[], [], [], t⟩⟩ := by
  have hstring : EncryptedString.string ⟨[], data, [], ⟨[], [], [], t⟩⟩ =
      intRepr t ++ '.' :: b64Encode data := by
    simp [EncryptedString.string, b64Encode]
  have hph : parseHeader (intRepr t ++ '.' :: b64Encode data) =
      .ok (t, [b64Encode data]) := by
    rw [parseHeader_tagged _ _ t hdot (b64Encode_no_dot data) hp,
      splitOn_no_sep '|' (b64Encode data) (b64Encode_no_pipe data)]
  rw [hstring]
  rw [NFEV_after_header _ (by simp) t _ hph]
  rcases ht with ht | ht <;> subst ht <;>
    simp [AesCbc128_HmacSha256_B64, AesCbc256_HmacSha256_B64, AesCbc256_B64,
      Rsa2048_OaepSha256_B64, Rsa2048_OaepSha1_B64, decodePieces,
      b64Decode_encode data hData, show b64Decode [] = some [] from rfl]

theorem string_starts_with_tag (e : EncryptedString) :
    ∃ rest, e.string = intRepr e.Key.EncryptionType ++ '.' :: rest := by
  by_cases h1 : 0 < e.IV.length
  · by_cases h2 : 0 < e.Hmac.length
    · exact ⟨b64Encode e.IV ++ '|' :: (b64Encode e.Data ++ '|' :: b64Encode e.Hmac),
        by simp [EncryptedString.string, h1, h2]⟩
    · exact ⟨b64Encode e.IV ++ '|' :: b64Encode e.Data,
        by simp [EncryptedString.string, h1, h2]⟩
  · by_cases h2 : 0 < e.Hmac.length
    · exact ⟨b64Encode e.Data ++ '|' :: b64Encode e.Hmac,
        by simp [EncryptedString.string, h1, h2]⟩
    · exact ⟨b64Encode e.Data, by simp [EncryptedString.string, h1, h2]⟩

/-- Claim C6 as amended: `Serialize` always emits the explicit decimal tag
prefix (for every envelope, parsed-from-legacy-input or constructed); and
`Parse (Serialize e) = e` holds for every envelope whose bytes are in range,
whose key metadata carries only the algorithm tag (as parsing produces),
and whose shape matches its tag: unauthenticated AES-CBC with a non-empty
IV and no MAC, HMAC-authenticated AES-CBC with non-empty IV and MAC, or an
RSA scheme with neither IV nor MAC.  (The counterexample shows the
unrestricted claim fails for shape-violating envelopes.) -/
theorem C6_serialize_parse_roundtrip (e : EncryptedString) :
    (∃ rest, e.string = intRepr e.Key.EncryptionType ++ '.' :: rest)
    ∧ ((∀ x ∈ e.IV, x < 256) → (∀ x ∈ e.Data, x < 256) →
       (∀ x ∈ e.Hmac, x < 256) →
       e.Key.Key = [] → e.Key.EncryptionKey = [] → e.Key.MacKey = [] →
       ((e.Key.EncryptionType = AesCbc256_B64 ∧ e.IV ≠ [] ∧ e.Hmac = [])
        ∨ ((e.Key.EncryptionType = AesCbc128_HmacSha256_B64 ∨
            e.Key.EncryptionType = AesCbc256_HmacSha256_B64) ∧
            e.IV ≠ [] ∧ e.Hmac ≠ [])
        ∨ ((e.Key.EncryptionType = Rsa2048_OaepSha256_B64 ∨
            e.Key.EncryptionType = Rsa2048_OaepSha1_B64) ∧
            e.IV = [] ∧ e.Hmac = [])) →
       NewFromEncryptedValue e.string = .ok e) := by
  refine ⟨string_starts_with_tag e, ?_⟩
  intro hIV hData hH hk1 hk2 hk3 hshape
  obtain ⟨iv, data, hmac, kk⟩ := e
  obtain ⟨kK, kE, kM, kT⟩ := kk
  dsimp only at hIV hData hH hk1 hk2 hk3 hshape ⊢
  subst hk1
  subst hk2
  subst hk3
  rcases hshape with ⟨ht, hiv, hh⟩ | ⟨ht, hiv, hh⟩ | ⟨ht, hiv, hh⟩
  · subst ht
    subst hh
    exact parse_string_two _ iv data (by decide) (by decide) rfl hIV hData hiv
  · rcases ht with ht | ht <;> subst ht
    · exact parse_string_three _ iv data hmac (by decide) (by decide)
        (Or.inl rfl) hIV hData hH hiv hh
    · exact parse_string_three _ iv data hmac (by decide) (by decide)
        (Or.inr rfl) hIV hData hH hiv hh
  · subst hiv
    subst hh
    rcases ht with ht | ht <;> subst ht
    · exact parse_string_one _ data (by decide) (by decide) (Or.inl rfl) hData
    · exact parse_string_one _ data (by decide) (by decide) (Or.inr rfl) hData

theorem C6_witness :
    NewFromEncryptedValue
      (EncryptedString.string ⟨[0], [255], [7], ⟨[], [], [], 2⟩⟩) =
      .ok ⟨[0], [255], [7], ⟨[], [], [], 2⟩⟩
    ∧ ∃ rest, EncryptedString.string ⟨[0], [255], [7], ⟨[], [], [], 2⟩⟩ =
        intRepr 2 ++ '.' :: rest := by
  have h := C6_serialize_parse_roundtrip ⟨[0], [255], [7], ⟨[], [], [], 2⟩⟩
  refine ⟨h.2 (by decide) (by decide) (by decide) rfl rfl rfl ?_, h.1⟩
  right
  left
  exact ⟨Or.inr rfl, by decide, by decide⟩

theorem xorBytes_cancel (a b : Bytes) (h : a.length = b.length) :
    xorBytes (xorBytes a b) b = a := by
  induction a generalizing b with
  | nil => rfl
  | cons x xs ih =>
    cases b with
    | nil => simp at h
    | cons y ys =>
      simp only [xorBytes, List.zipWith_cons_cons] at *
      have hxy : Nat.xor (Nat.xor x y) y = x := Nat.xor_cancel_right y x
      rw [hxy, ih ys (by simpa using h)]

theorem toBlocks16_flatten : ∀ (l : Bytes), (toBlocks16 l).flatten = l := by
  intro l
  induction l using toBlocks16.induct with
  | case1 => simp [toBlocks16]
  | case2 a rest ih =>
    rw [toBlocks16]
    simp only [List.flatten_cons, ih]
    exact List.take_append_drop 16 (a :: rest)

theorem toBlocks16_all16 : ∀ (l : Bytes), l.length % 16 = 0 →
    ∀ b ∈ toBlocks16 l, b.length = 16 := by
  intro l
  induction l using toBlocks16.induct with
  | case1 =>
    intro _ b hb
    simp [toBlocks16] at hb
  | case2 a rest ih =>
    intro hlen b hb
    rw [toBlocks16] at hb
    have hge : 16 ≤ (a :: rest).length := by
      have hpos : 0 < (a :: rest).length := by simp
      omega
    rcases List.mem_cons.mp hb with h | h
    · subst h
      simp only [List.length_take]
      omega
    · refine ih ?_ b h
      simp only [List.length_drop]
      omega

theorem flatten_all16_mod : ∀ (bs : List Bytes), (∀ b ∈ bs, b.length = 16) →
    bs.flatten.length % 16 = 0 := by
  intro bs
  induction bs with
  | nil => intro _; rfl
  | cons b rest ih =>
    intro hall
    have hb : b.length = 16 := hall b (by simp)
    have := ih (fun x hx => hall x (by simp [hx]))
    simp only [List.flatten_cons, List.length_append]
    omega

theorem toBlocks16_flatten_blocks : ∀ (bs : List Bytes),
    (∀ b ∈ bs, b.length = 16) → toBlocks16 bs.flatten = bs := by
  intro bs
  induction bs with
  | nil =>
    intro _
    simp [toBlocks16]
  | cons b rest ih =>
    intro hall
    have hb : b.length = 16 := hall b (by simp)
    have hne : b ≠ [] := by
      intro h0
      rw [h0] at hb
      simp at hb
    obtain ⟨x, xs, rfl⟩ := List.exists_cons_of_ne_nil hne
    have e1 : (x :: (xs ++ rest.flatten)).take 16 = x :: xs := by
      rw [← List.cons_append, ← hb, List.take_left]
    have e2 : (x :: (xs ++ rest.flatten)).drop 16 = rest.flatten := by
      rw [← List.cons_append, ← hb, List.drop_left]
    simp only [List.flatten_cons, List.cons_append, toBlocks16, e1, e2]
    rw [ih (fun y hy => hall y (by simp [hy]))]

theorem cbcEncList_all16 (aesEncB : Bytes → Bytes → Bytes) (kb : Bytes)
    (hElen : ∀ b, b.length = 16 → (aesEncB kb b).length = 16) :
    ∀ (bs : List Bytes) (prev : Bytes), (∀ b ∈ bs, b.length = 16) →
      prev.length = 16 →
      ∀ c ∈ cbcEncList aesEncB kb prev bs, c.length = 16 := by
  intro bs
  induction bs with
  | nil =>
    intro prev _ _ c hc
    simp [cbcEncList] at hc
  | cons b rest ih =>
    intro prev hall hprev c hc
    have hb : b.length = 16 := hall b (by simp)
    have hxlen : (xorBytes b prev).length = 16 := by
      simp only [xorBytes, List.length_zipWith]
      omega
    simp only [cbcEncList] at hc
    rcases List.mem_cons.mp hc with h | h
    · subst h
      exact hElen _ hxlen
    · exact ih (aesEncB kb (xorBytes b prev))
        (fun x hx => hall x (by simp [hx])) (hElen _ hxlen) c h

theorem cbc_roundtrip (aesEncB aesDecB : Bytes → Bytes → Bytes) (kb : Bytes)
    (hinv : ∀ b, b.length = 16 → aesDecB kb (aesEncB kb b) = b)
    (hElen : ∀ b, b.length = 16 → (aesEncB kb b).length = 16) :
    ∀ (bs : List Bytes) (prev : Bytes), (∀ b ∈ bs, b.length = 16) →
      prev.length = 16 →
      cbcDecList aesDecB kb prev (cbcEncList aesEncB kb prev bs) = bs := by
  intro bs
  induction bs with
  | nil => intro prev _ _; rfl
  | cons b rest ih =>
    intro prev hall hprev
    have hb : b.length = 16 := hall b (by simp)
    have hxlen : (xorBytes b prev).length = 16 := by
      simp only [xorBytes, List.length_zipWith]
      omega
    simp only [cbcEncList, cbcDecList]
    rw [hinv _ hxlen, xorBytes_cancel b prev (by omega),
      ih _ (fun x hx => hall x (by simp [hx])) (hElen _ hxlen)]

theorem pkcs5_roundtrip (p : Bytes) (hp : p ≠ []) :
    pkcs5Unpadding (pkcs5Padding p 16) 16 = .ok p := by
  have hplen : 0 < p.length := List.length_pos.mpr hp
  have hmodlt : p.length % 16 < 16 := Nat.mod_lt _ (by omega)
  have hmod : (16 - p.length % 16) % 256 = 16 - p.length % 16 :=
    Nat.mod_eq_of_lt (by omega)
  have hform : pkcs5Padding p 16 =
      (p ++ List.replicate (16 - p.length % 16 - 1) (16 - p.length % 16)) ++
        [16 - p.length % 16] := by
    obtain ⟨m, hm⟩ : ∃ m, 16 - p.length % 16 = m + 1 :=
      ⟨16 - p.length % 16 - 1, by omega⟩
    have hmod2 : (m + 1) % 256 = m + 1 := by omega
    rw [pkcs5Padding]
    simp only [hm, hmod2, List.replicate_succ', Nat.add_sub_cancel,
      List.append_assoc]
  have hlast : (pkcs5Padding p 16).getLast? = some (16 - p.length % 16) := by
    rw [hform]
    exact List.getLast?_concat _
  have hlen : (pkcs5Padding p 16).length = p.length + (16 - p.length % 16) := by
    simp [pkcs5Padding]
  rw [pkcs5Unpadding, hlast, hlen]
  dsimp only
  have hne1 : ¬(16 - p.length % 16 = p.length + (16 - p.length % 16)) := by
    omega
  have hne2 : ¬(16 < 16 - p.length % 16) := by omega
  rw [if_neg hne1, if_neg hne2]
  have htake : p.length + (16 - p.length % 16) - (16 - p.length % 16) =
      p.length := by omega
  rw [htake, pkcs5Padding]
  rw [List.take_left p _]

theorem aes256_roundtrip (aesEncB aesDecB : Bytes → Bytes → Bytes)
    (kb iv p : Bytes)
    (hinv : ∀ b, b.length = 16 → aesDecB kb (aesEncB kb b) = b)
    (hElen : ∀ b, b.length = 16 → (aesEncB kb b).length = 16)
    (hkb : kb.length = 32) (hiv : iv.length = 16) (hp : p ≠ []) :
    aes256Encode aesEncB p kb iv 16 =
      .ok (cbcEncList aesEncB kb iv (toBlocks16 (pkcs5Padding p 16))).flatten
    ∧ aes256Decode aesDecB
        (cbcEncList aesEncB kb iv (toBlocks16 (pkcs5Padding p 16))).flatten
        kb iv = .ok p := by
  have hpadmod : (pkcs5Padding p 16).length % 16 = 0 := by
    simp only [pkcs5Padding, List.length_append, List.length_replicate]
    omega
  have hblocks := toBlocks16_all16 (pkcs5Padding p 16) hpadmod
  have hcencall := cbcEncList_all16 aesEncB kb hElen
    (toBlocks16 (pkcs5Padding p 16)) iv hblocks hiv
  have hdatamod := flatten_all16_mod _ hcencall
  have hC1 : ¬¬(kb.length = 16 ∨ kb.length = 24 ∨ kb.length = 32) := by omega
  have hC2 : ¬(iv.length ≠ 16) := by omega
  constructor
  · simp only [aes256Encode]
    rw [if_neg hC1, if_neg hC2,
      if_neg (show ¬((pkcs5Padding p 16).length % 16 ≠ 0) by omega)]
  · simp only [aes256Decode]
    rw [if_neg hC1, if_neg hC2,
      if_neg (show ¬((cbcEncList aesEncB kb iv
        (toBlocks16 (pkcs5Padding p 16))).flatten.length % 16 ≠ 0) by omega)]
    rw [toBlocks16_flatten_blocks _ hcencall,
      cbc_roundtrip aesEncB aesDecB kb hinv hElen _ iv hblocks hiv,
      toBlocks16_flatten, pkcs5_roundtrip p hp]

theorem decrypt_ok_of_roundtrip (hmacF aesDecB : Bytes → Bytes → Bytes)
    (iv data p : Bytes) (k : Key)
    (hmaclen : (hmacF (iv ++ data) k.MacKey).length = 32)
    (hmk32 : k.MacKey.length = 32)
    (hdec : aes256Decode aesDecB data k.EncryptionKey iv = .ok p) :
    Decrypt hmacF aesDecB ⟨iv, data, hmacF (iv ++ data) k.MacKey, k⟩ k =
      .ok p := by
  have h1 : ¬(k.EncryptionType = AesCbc128_HmacSha256_B64 ∧
      k.EncryptionType = AesCbc256_B64) := by
    rintro ⟨x, y⟩
    rw [x] at y
    exact absurd y (by decide)
  rw [Decrypt]
  dsimp only
  rw [if_neg h1, if_neg (show ¬(k.EncryptionType ≠ k.EncryptionType) by simp),
    if_neg (show ¬((hmacF (iv ++ data) k.MacKey).length = 0 ∧
      0 < k.MacKey.length) by omega),
    if_neg (show ¬((hmacF (iv ++ data) k.MacKey).length ≠ k.MacKey.length)
      by omega),
    if_neg (show ¬(hmacF (iv ++ data) k.MacKey ≠ hmacF (iv ++ data) k.MacKey)
      by simp),
    hdec]
  rfl

/-- Claim C1 as amended: encryption followed by decryption with the same
key is the identity on the plaintext precisely for keys with a 32-byte
authentication sub-key (64-byte raw keys): under the assumptions that the
AES block cipher decrypts what it encrypts on 16-byte blocks, for every
non-empty plaintext, 16-byte IV and 32-byte encryption sub-key, `Encrypt`
succeeds and `Decrypt` returns the original plaintext.  For keys whose
authentication sub-key is empty (32-byte legacy keys) the round trip is
impossible: `Encrypt` always errors (its safe-mode reverse decryption
compares the unconditionally attached 32-byte HMAC against the empty MAC
key) and `Decrypt` errors on every envelope. -/
theorem C1_encrypt_decrypt_roundtrip
    (hmacF aesEncB aesDecB : Bytes → Bytes → Bytes)
    (hmaclen : ∀ value mk, (hmacF value mk).length = 32)
    (iv p : Bytes) (k : Key)
    (hinv : ∀ b, b.length = 16 →
      aesDecB k.EncryptionKey (aesEncB k.EncryptionKey b) = b)
    (hElen : ∀ b, b.length = 16 → (aesEncB k.EncryptionKey b).length = 16)
    (hiv : iv.length = 16) (hp : p ≠ []) (hek : k.EncryptionKey.length = 32) :
    (k.MacKey.length = 32 →
      ∃ env, Encrypt hmacF aesEncB aesDecB iv p k = .ok env ∧
        Decrypt hmacF aesDecB env k = .ok p)
    ∧ (k.MacKey = [] →
        isErr (Encrypt hmacF aesEncB aesDecB iv p k) = true ∧
        ∀ e, isErr (Decrypt hmacF aesDecB e k) = true) := by
  constructor
  · intro hmk32
    obtain ⟨henc, hdec⟩ := aes256_roundtrip aesEncB aesDecB k.EncryptionKey
      iv p hinv hElen hek hiv hp
    have hdecres := decrypt_ok_of_roundtrip hmacF aesDecB iv
      (cbcEncList aesEncB k.EncryptionKey iv
        (toBlocks16 (pkcs5Padding p 16))).flatten p k (hmaclen _ _) hmk32 hdec
    refine ⟨⟨iv, (cbcEncList aesEncB k.EncryptionKey iv
      (toBlocks16 (pkcs5Padding p 16))).flatten,
      hmacF (iv ++ (cbcEncList aesEncB k.EncryptionKey iv
        (toBlocks16 (pkcs5Padding p 16))).flatten) k.MacKey, k⟩, ?_, hdecres⟩
    rw [Encrypt]
    rw [if_neg (show ¬(p.length = 0) by
        intro h0
        exact hp (List.length_eq_zero.mp h0)),
      if_neg (show ¬(k.EncryptionKey.length = 0) by omega),
      if_neg (show ¬(iv.length ≠ 16) by omega), henc]
    dsimp only
    rw [show SafeMode = true from rfl, if_pos rfl]
    rw [hdecres]
    dsimp only
    rw [if_neg (show ¬(p ≠ p) by simp)]
  · intro hk
    exact ⟨encrypt_err_of_macKey_nil hmacF aesEncB aesDecB hmaclen iv p k hk,
      fun e => decrypt_err_of_macKey_nil hmacF aesDecB e k (hmaclen _ _) hk⟩

/-- Claim C1 counterexample: with a 32-byte legacy key (empty
authentication sub-key) the round trip fails at this concrete input —
`Encrypt` of the plaintext `[1]` errors out in its safe-mode reverse
decryption, because the unconditionally attached 32-byte HMAC cannot match
the key's empty MAC key. -/
theorem C1_counterexample :
    Encrypt (fun _ _ => List.replicate 32 0) (fun _ b => b) (fun _ b => b)
      (List.replicate 16 0) [1]
      ⟨List.replicate 32 0, List.replicate 32 0, [], 0⟩ =
      .error (.reverseDecrypt .hmacLengthsDiffer) := by
  decide

theorem C1_witness :
    ∃ env, Encrypt (fun _ _ => List.replicate 32 0) (fun _ b => b)
      (fun _ b => b) (List.replicate 16 0) [1]
      ⟨List.replicate 64 0, List.replicate 32 0, List.replicate 32 0, 2⟩ =
      .ok env ∧
      Decrypt (fun _ _ => List.replicate 32 0) (fun _ b => b) env
        ⟨List.replicate 64 0, List.replicate 32 0, List.replicate 32 0, 2⟩ =
      .ok [1] :=
  (C1_encrypt_decrypt_roundtrip (fun _ _ => List.replicate 32 0)
    (fun _ b => b) (fun _ b => b) (fun _ _ => by simp)
    (List.replicate 16 0) [1]
    ⟨List.replicate 64 0, List.replicate 32 0, List.replicate 32 0, 2⟩
    (fun _ _ => rfl) (fun _ hb => hb) (by simp) (by simp) (by simp)).1
    (by simp)
